import Mathlib

/-!
Shallow embedding of the `tree` command-line utility (src/main.rs) and proofs
about its traversal, filtering, sorting, rendering and error behaviour.

The filesystem is modelled as an oracle `Fs`:
 - `Fs.readDir p` models `fs::read_dir(p)`: `none` when the read fails,
   otherwise the list of iterator items, where an item `none` models an
   `Err(_)` yielded by the iterator and `some n` models an `Ok` entry whose
   file name is `n`.
 - `Fs.meta q` models a (non-following) metadata query at path `q`: `none`
   when the query fails, otherwise the three predicates the program consults.

`print_subtree` is the direct translation of the recursive function of the
same name in src/main.rs; recursion is made total with a fuel parameter
(fuel irrelevance beyond the tree's depth is proved below). `runMain`
translates the root-resolution logic of `main`.
-/

/-- Result of a metadata query (`fs::Metadata`), reduced to the three
predicates the program consults. -/
structure Metadata where
  is_dir : Bool
  is_file : Bool
  is_symlink : Bool
  deriving DecidableEq, Repr

/-- Filesystem oracle: directory reads and metadata queries, both fallible. -/
structure Fs where
  readDir : String → Option (List (Option String))
  meta : String → Option Metadata

/-- Path separator used when a directory entry's path is formed from its
parent's path and its file name (`entry.path()`). -/
def pathSep : String := "/"

/-- Path of a directory entry: the parent path joined with the entry name. -/
def childPath (p n : String) : String := p ++ pathSep ++ n

/-- Classification of one directory entry from its metadata query, mirroring
`(value.is_dir(), value.is_file() || value.is_symlink())` in src/main.rs
lines 147-153, with a failed query mapped to `(false, false)`. -/
def classify : Option Metadata → Bool × Bool
  | some md => (md.is_dir, md.is_file || md.is_symlink)
  | none => (false, false)

/-- A retained entry of the `entries` vector: the entry (represented by its
file name) paired with the `is_dir` flag, as in
`vec::Vec::<(fs::DirEntry,bool)>` in src/main.rs line 141. -/
structure DirEntry where
  name : String
  is_dir : Bool
  deriving DecidableEq, Repr

/-- The filtering loop of src/main.rs lines 144-162: iterator errors are
skipped, entries that are neither directory-like nor file-like are skipped,
and file-like entries are kept only when `show_files` is set. -/
def filterEntries (fs : Fs) (p : String) (show_files : Bool) :
    List (Option String) → List DirEntry
  | [] => []
  | none :: rest => filterEntries fs p show_files rest
  | some n :: rest =>
    let c := classify (fs.meta (childPath p n))
    if !c.1 && !c.2 then
      filterEntries fs p show_files rest
    else if c.1 || show_files then
      ⟨n, c.1⟩ :: filterEntries fs p show_files rest
    else
      filterEntries fs p show_files rest

/-- Sort key of a retained entry: its full path (`entry.path()`). -/
def entryKey (p : String) (e : DirEntry) : String := childPath p e.name

/-- Comparator used for sorting: ascending by full path string. -/
def entryLE (p : String) (a b : DirEntry) : Bool := decide (entryKey p a ≤ entryKey p b)

/-- The sort of src/main.rs line 167:
`entries.sort_unstable_by_key(|(entry, _)| entry.path())`. -/
def sortEntries (p : String) (es : List DirEntry) : List DirEntry :=
  es.mergeSort (entryLE p)

/-- Index into `format_str` chosen at one prefix position (src/main.rs lines
189-203): position 0 is the corner glyph, 1 the branch glyph, 2 the blank
continuation glyph, 3 the vertical continuation glyph. -/
def glyphIndex (own_level was_last : Bool) : Nat :=
  if own_level then (if was_last then 0 else 1) else (if was_last then 2 else 3)

/-- The rendering loop over `new_prefix` (src/main.rs lines 189-203), with
`i` the current position and `max_depth` the last position. -/
def renderGlyphs (format_str : List String) (max_depth : Nat) :
    Nat → List Bool → List String
  | _, [] => []
  | i, b :: rest =>
    format_str.getD (glyphIndex (i == max_depth) b) "" ::
      renderGlyphs format_str max_depth (i+1) rest

/-- Glyphs printed before an entry's name, for connector prefix `new_pre`
(the `new_prefix` vector of src/main.rs line 183-188). -/
def renderPre (new_pre : List Bool) (format_str : List String) : List String :=
  renderGlyphs format_str (new_pre.length - 1) 0 new_pre

/-- One printed line: the rendered connector prefix followed by the name. -/
def renderLine (new_pre : List Bool) (format_str : List String) (name : String) : String :=
  String.join (renderPre new_pre format_str) ++ name

/-- Output contributed by one retained entry (loop body, src/main.rs lines
172-210): its own line, then, when it is directory-like, the lines of the
recursive call on its path. `recur` is the recursive continuation. -/
def emitEntry (recur : String → List Bool → List String) (format_str : List String)
    (path : String) (pre : List Bool) (count i : Nat) (e : DirEntry) : List String :=
  let new_pre := pre ++ [i == count - 1]
  renderLine new_pre format_str e.name ::
    (if e.is_dir then recur (childPath path e.name) new_pre else [])

/-- Iteration over the sorted entries with their index (src/main.rs line 172:
`for (i, (entry, is_dir)) in entries.iter().enumerate()`). -/
def emitAll (recur : String → List Bool → List String) (format_str : List String)
    (path : String) (pre : List Bool) (count : Nat) : Nat → List DirEntry → List String
  | _, [] => []
  | i, e :: rest =>
    emitEntry recur format_str path pre count i e ++
      emitAll recur format_str path pre count (i+1) rest

/-- Translation of `print_subtree` (src/main.rs lines 130-211). A failed
directory read prints nothing; otherwise entries are filtered, sorted and
emitted in order. The `Nat` argument is recursion fuel. -/
def print_subtree (fs : Fs) (show_files : Bool) (format_str : List String) :
    Nat → String → List Bool → List String
  | 0, _, _ => []
  | fuel+1, path, pre =>
    match fs.readDir path with
    | none => []
    | some items =>
      let entries := sortEntries path (filterEntries fs path show_files items)
      emitAll (print_subtree fs show_files format_str fuel) format_str path pre
        entries.length 0 entries

/-- Final path component of a canonical path, `none` for a root such as
`/` (models `Path::file_name`, src/main.rs lines 109-112 and 176-179). -/
def fileName (s : String) : Option String :=
  ((String.splitOn s pathSep).filter (fun c => c ≠ "")).getLast?

/-- Display name: final path component, falling back to the full path. -/
def displayName (s : String) : String := (fileName s).getD s

/-- Unicode glyph set (src/main.rs line 119). -/
def unicodeFormat : List String := ["└───", "├───", "    ", "│   "]

/-- ASCII glyph set (src/main.rs line 117). -/
def asciiFormat : List String := ["\\---", "+---", "    ", "|   "]

/-- Ambient process state consulted by `main` while resolving the root. -/
structure OsEnv where
  currentDir : Option String
  canonicalize : String → Option String
  fs : Fs

/-- The search path before canonicalization: the positional argument when
present, otherwise the current working directory (src/main.rs lines 58-78). -/
def startPath (path_arg : Option String) (env : OsEnv) : Option String :=
  match path_arg with
  | some s => some s
  | none => env.currentDir

/-- Translation of `main` (src/main.rs lines 32-127): resolve the root, fail
with a message (exit status 1) when it cannot be established, otherwise print
the root's display name followed by the recursive listing (exit status 0). -/
def runMain (path_arg : Option String) (show_files ascii_flag : Bool) (env : OsEnv)
    (fuel : Nat) : Except String (List String) :=
  match startPath path_arg env with
  | none => Except.error ("error: unable to get current directory")
  | some path0 =>
    match env.canonicalize path0 with
    | none => Except.error ("error: unable to canonicalize " ++ path0)
    | some path =>
      match env.fs.meta path with
      | none => Except.error ("error: unable to get metadata of " ++ path)
      | some md =>
        if !md.is_dir then
          Except.error ("error: " ++ path ++ " is not a directory")
        else
          let format_str := if ascii_flag then asciiFormat else unicodeFormat
          Except.ok (displayName path ::
            print_subtree env.fs show_files format_str fuel path [])

/-- Names of the `Ok` items of one directory read. -/
def okNames (items : List (Option String)) : List String := items.filterMap id

/-- The filesystem with the read result at one path replaced. -/
def setReadDir (fs : Fs) (p : String) (v : Option (List (Option String))) : Fs :=
  ⟨fun q => if q = p then v else fs.readDir q, fs.meta⟩

/-- Depth bound for the oracle filesystem below a path: `depthLe fs sf n p`
states that every chain of retained directory-like entries below `p` has
length at most `n`; it is the finiteness hypothesis under which the fuelled
recursion stabilizes. -/
def depthLe (fs : Fs) (show_files : Bool) : Nat → String → Prop
  | 0, p => ∀ items, fs.readDir p = some items → filterEntries fs p show_files items = []
  | n+1, p => ∀ items, fs.readDir p = some items →
      ∀ e, e ∈ filterEntries fs p show_files items → e.is_dir = true →
        depthLe fs show_files n (childPath p e.name)

/-- One step of the filtering loop, as an `Option`-valued map. -/
def keepEntry (fs : Fs) (p : String) (show_files : Bool) : Option String → Option DirEntry
  | none => none
  | some n =>
    let c := classify (fs.meta (childPath p n))
    if !c.1 && !c.2 then none
    else if c.1 || show_files then some ⟨n, c.1⟩
    else none

theorem filterEntries_eq_filterMap (fs : Fs) (p : String) (sf : Bool)
    (items : List (Option String)) :
    filterEntries fs p sf items = items.filterMap (keepEntry fs p sf) := by
  induction items with
  | nil => rfl
  | cons it rest ih =>
    cases it with
    | none => simpa [filterEntries, keepEntry, List.filterMap_cons] using ih
    | some n =>
      by_cases h1 : (!(classify (fs.meta (childPath p n))).1 &&
          !(classify (fs.meta (childPath p n))).2) = true
      · simpa [filterEntries, keepEntry, List.filterMap_cons, h1] using ih
      · by_cases h2 : ((classify (fs.meta (childPath p n))).1 || sf) = true
        · simpa [filterEntries, keepEntry, List.filterMap_cons, h1, h2] using ih
        · simpa [filterEntries, keepEntry, List.filterMap_cons, h1, h2] using ih

theorem names_filterEntries_sublist (fs : Fs) (p : String) (sf : Bool)
    (items : List (Option String)) :
    ((filterEntries fs p sf items).map DirEntry.name).Sublist (okNames items) := by
  induction items with
  | nil => simp [filterEntries, okNames]
  | cons it rest ih =>
    cases it with
    | none => simpa [filterEntries, okNames, List.filterMap_cons] using ih
    | some n =>
      by_cases h1 : (!(classify (fs.meta (childPath p n))).1 &&
          !(classify (fs.meta (childPath p n))).2) = true
      · simp only [filterEntries, h1, if_pos]
        exact (by simpa [okNames, List.filterMap_cons] using ih.cons n)
      · by_cases h2 : ((classify (fs.meta (childPath p n))).1 || sf) = true
        · simp only [filterEntries, h1, if_neg, h2, if_pos, List.map_cons]
          exact (by simpa [okNames, List.filterMap_cons] using ih.cons₂ n)
        · simp only [filterEntries, h1, if_neg, h2]
          exact (by simpa [okNames, List.filterMap_cons] using ih.cons n)

theorem entryKey_inj (p : String) {a b : DirEntry} (h : entryKey p a = entryKey p b) :
    a.name = b.name := by
  have hd := congrArg String.data h
  simp only [entryKey, childPath, String.data_append] at hd
  exact congrArg String.mk (List.append_cancel_left hd)

theorem sortEntries_perm (p : String) (es : List DirEntry) :
    List.Perm (sortEntries p es) es :=
  List.mergeSort_perm es (entryLE p)

theorem sortEntries_pairwise_le (p : String) (es : List DirEntry) :
    (sortEntries p es).Pairwise (fun a b => entryLE p a b = true) := by
  apply List.sorted_mergeSort
  · intro a b c hab hbc
    simp only [entryLE, decide_eq_true_eq] at *
    exact le_trans hab hbc
  · intro a b
    simp only [entryLE]
    rcases le_total (entryKey p a) (entryKey p b) with h | h <;> simp [h]

theorem sortEntries_pairwise_lt (p : String) {es : List DirEntry}
    (h : (es.map DirEntry.name).Nodup) :
    (sortEntries p es).Pairwise (fun a b => entryKey p a < entryKey p b) := by
  have hle := sortEntries_pairwise_le p es
  have hnd : ((sortEntries p es).map DirEntry.name).Nodup :=
    (((sortEntries_perm p es).map DirEntry.name).nodup_iff).mpr h
  rw [List.Nodup, List.pairwise_map] at hnd
  refine (hle.and hnd).imp ?_
  rintro a b ⟨h1, h2⟩
  have hle' : entryKey p a ≤ entryKey p b := by
    simpa [entryLE, decide_eq_true_eq] using h1
  exact lt_of_le_of_ne hle' (fun hk => h2 (entryKey_inj p hk))

theorem sortEntries_eq_of_perm (p : String) {es es' : List DirEntry}
    (hperm : List.Perm es es') (h : (es.map DirEntry.name).Nodup) :
    sortEntries p es = sortEntries p es' := by
  have h' : (es'.map DirEntry.name).Nodup := ((hperm.map DirEntry.name).nodup_iff).mp h
  have p1 := sortEntries_pairwise_lt p h
  have p2 := sortEntries_pairwise_lt p h'
  have hpp : List.Perm (sortEntries p es) (sortEntries p es') :=
    ((sortEntries_perm p es).trans hperm).trans (sortEntries_perm p es').symm
  haveI : IsAntisymm DirEntry (fun a b => entryKey p a < entryKey p b) :=
    ⟨fun a b h1 h2 => absurd (lt_trans h1 h2) (lt_irrefl _)⟩
  exact List.eq_of_perm_of_sorted hpp p1 p2

theorem emitAll_congr {r1 r2 : String → List Bool → List String} {fmt : List String}
    {path : String} {pre : List Bool} {count : Nat} :
    ∀ (i : Nat) (l : List DirEntry),
      (∀ e ∈ l, e.is_dir = true →
        ∀ pr, r1 (childPath path e.name) pr = r2 (childPath path e.name) pr) →
      emitAll r1 fmt path pre count i l = emitAll r2 fmt path pre count i l := by
  intro i l
  induction l generalizing i with
  | nil => intro _; rfl
  | cons e rest ih =>
    intro h
    have he : emitEntry r1 fmt path pre count i e = emitEntry r2 fmt path pre count i e := by
      simp only [emitEntry]
      cases hd : e.is_dir with
      | false => simp
      | true => simp [h e (List.mem_cons_self e rest) hd]
    rw [emitAll, emitAll, he, ih (i+1) (fun e' he' => h e' (List.mem_cons_of_mem _ he'))]

theorem filterEntries_meta_congr {fs fs' : Fs} (h : fs'.meta = fs.meta) (p : String)
    (sf : Bool) (items : List (Option String)) :
    filterEntries fs' p sf items = filterEntries fs p sf items := by
  induction items with
  | nil => rfl
  | cons it rest ih => cases it <;> simp [filterEntries, h, ih]

theorem length_childPath (p n : String) :
    (childPath p n).length = p.length + 1 + n.length := by
  simp [childPath, pathSep, String.length_append]
  rfl

theorem print_subtree_congr_deep {fs fs' : Fs} (hm : fs'.meta = fs.meta) (L : Nat)
    (hrd : ∀ q : String, L < q.length → fs.readDir q = fs'.readDir q)
    (sf : Bool) (fmt : List String) :
    ∀ (fuel : Nat) (q : String) (pre : List Bool), L < q.length →
      print_subtree fs sf fmt fuel q pre = print_subtree fs' sf fmt fuel q pre := by
  intro fuel
  induction fuel with
  | zero => intro q pre _; rfl
  | succ n ih =>
    intro q pre hq
    cases h : fs.readDir q with
    | none => simp only [print_subtree, ← hrd q hq, h]
    | some items =>
      simp only [print_subtree, ← hrd q hq, h]
      rw [filterEntries_meta_congr hm]
      apply emitAll_congr
      intro e _ _ pr
      exact ih (childPath q e.name) pr (by rw [length_childPath]; omega)

theorem renderGlyphs_getElem (fmt : List String) (m : Nat) :
    ∀ (l : List Bool) (i j : Nat),
      (renderGlyphs fmt m i l)[j]? =
        (l[j]?).map (fun b => fmt.getD (glyphIndex ((i + j) == m) b) "") := by
  intro l
  induction l with
  | nil => intro i j; simp [renderGlyphs]
  | cons b rest ih =>
    intro i j
    cases j with
    | zero => simp [renderGlyphs]
    | succ k =>
      have : i + (k + 1) = (i + 1) + k := by omega
      simpa [renderGlyphs, this] using ih (i+1) k

/-- C1: in the rendered connector prefix of an entry, the glyph at the
entry's own (last) position is the corner glyph (index 0) when the entry is
last among its siblings and the branch glyph (index 1) otherwise; at every
earlier position the glyph is the blank glyph (index 2) when the
corresponding ancestor was last and the vertical glyph (index 3) otherwise;
and the flag pushed for an entry's own position is exactly the last-sibling
test `i == count - 1` on the sorted listing. -/
theorem connector_glyph_correct (pre : List Bool) (isLast : Bool) (fmt : List String)
    (p : Nat) :
    ((renderPre (pre ++ [isLast]) fmt)[pre.length]? =
        some (if isLast then fmt.getD 0 "" else fmt.getD 1 ""))
    ∧ (p < pre.length →
        (renderPre (pre ++ [isLast]) fmt)[p]? =
          some (if pre.getD p false then fmt.getD 2 "" else fmt.getD 3 ""))
    ∧ (∀ (recur : String → List Bool → List String) (path : String) (count i : Nat)
        (e : DirEntry),
        (emitEntry recur fmt path pre count i e).head? =
          some (renderLine (pre ++ [i == count - 1]) fmt e.name)) := by
  have hlen : (pre ++ [isLast]).length - 1 = pre.length := by simp
  refine ⟨?_, ?_, ?_⟩
  · rw [renderPre, hlen, renderGlyphs_getElem, List.getElem?_concat_length]
    cases isLast <;> simp [glyphIndex]
  · intro hp
    rw [renderPre, hlen, renderGlyphs_getElem, List.getElem?_append_left hp]
    rw [List.getElem?_eq_getElem hp]
    have hne : (0 + p == pre.length) = false := by
      simp only [Nat.zero_add, beq_eq_false_iff_ne, ne_eq]
      omega
    rw [List.getD_eq_getElem pre false hp]
    cases h : pre[p] <;> simp [hne, glyphIndex, Nat.ne_of_lt hp]
  · intro recur path count i e
    simp [emitEntry]

theorem connector_glyph_correct_witness :
    0 < 1 ∧ (renderPre ([true] ++ [false]) unicodeFormat)[0]? = some ("    ") := by
  refine ⟨by decide, ?_⟩
  have h := (connector_glyph_correct [true] false unicodeFormat 0).2.1 (by decide)
  simpa [unicodeFormat] using h

/-- C2: a directory's retained entries are printed in strictly ascending
order of their full path string, and the sorted listing is invariant under
any permutation of the order in which the filesystem enumerated the items
(given the filesystem guarantee that names within a directory are unique). -/
theorem sorted_listing_correct (fs : Fs) (p : String) (sf : Bool)
    (items : List (Option String)) (h : (okNames items).Nodup) :
    (((sortEntries p (filterEntries fs p sf items)).map (entryKey p)).Pairwise
        (fun a b => a < b))
    ∧ ∀ items', List.Perm items items' →
        sortEntries p (filterEntries fs p sf items') =
          sortEntries p (filterEntries fs p sf items) := by
  have hnames : ((filterEntries fs p sf items).map DirEntry.name).Nodup :=
    (names_filterEntries_sublist fs p sf items).nodup h
  constructor
  · rw [List.pairwise_map]
    exact sortEntries_pairwise_lt p hnames
  · intro items' hperm
    have hpf : List.Perm (filterEntries fs p sf items') (filterEntries fs p sf items) := by
      rw [filterEntries_eq_filterMap, filterEntries_eq_filterMap]
      exact (hperm.symm).filterMap _
    exact sortEntries_eq_of_perm p hpf (((hpf.map DirEntry.name).nodup_iff).mpr hnames)

theorem sorted_listing_correct_witness :
    (okNames [some "b", some "a"]).Nodup ∧
      (((sortEntries "r" (filterEntries ⟨fun _ => none, fun _ => some ⟨true, false, false⟩⟩
          "r" false [some "b", some "a"])).map (entryKey "r")).Pairwise (fun a b => a < b)
        ∧ ∀ items', List.Perm [some "b", some "a"] items' →
            sortEntries "r" (filterEntries ⟨fun _ => none, fun _ => some ⟨true, false, false⟩⟩
                "r" false items') =
              sortEntries "r" (filterEntries ⟨fun _ => none, fun _ => some ⟨true, false, false⟩⟩
                "r" false [some "b", some "a"])) :=
  ⟨by decide, sorted_listing_correct _ "r" false [some "b", some "a"] (by decide)⟩

/-- C3: with `show_files` false every retained entry is directory-like; with
`show_files` true every directory-like or file-like entry of a successfully
read directory is retained exactly once (occurrence for occurrence); and an
entry classified neither directory-like nor file-like (in particular one
whose metadata query failed) is never retained under either flag. -/
theorem filtering_law_correct :
    (∀ (fs : Fs) (p : String) (items : List (Option String)) (e : DirEntry),
        e ∈ filterEntries fs p false items → e.is_dir = true)
    ∧ (∀ (fs : Fs) (p : String) (items : List (Option String)) (n : String),
        ((classify (fs.meta (childPath p n))).1 = true ∨
          (classify (fs.meta (childPath p n))).2 = true) →
        (filterEntries fs p true items).countP (fun e => e.name == n) =
          items.countP (fun it => it == some n))
    ∧ (∀ (fs : Fs) (p : String) (sf : Bool) (items : List (Option String)) (n : String),
        classify (fs.meta (childPath p n)) = (false, false) →
        (filterEntries fs p sf items).countP (fun e => e.name == n) = 0) := by
  refine ⟨?_, ?_, ?_⟩
  · intro fs p items e he
    rw [filterEntries_eq_filterMap] at he
    obtain ⟨it, _, hke⟩ := List.mem_filterMap.mp he
    cases it with
    | none => simp [keepEntry] at hke
    | some n =>
      simp only [keepEntry] at hke
      by_cases h1 : (!(classify (fs.meta (childPath p n))).1 &&
          !(classify (fs.meta (childPath p n))).2) = true
      · simp [h1] at hke
      · by_cases h2 : ((classify (fs.meta (childPath p n))).1 || false) = true
        · simp only [h1, h2, if_true, if_false, Bool.false_eq_true] at hke
          simp only [Option.some.injEq] at hke
          simp only [Bool.or_false] at h2
          rw [← hke]
          exact h2
        · simp [h1, h2] at hke
  · intro fs p items n hcl
    induction items with
    | nil => simp [filterEntries]
    | cons it rest ih =>
      cases it with
      | none =>
        simpa [filterEntries, List.countP_cons] using ih
      | some m =>
        by_cases hmn : m = n
        · subst hmn
          have h1 : (!(classify (fs.meta (childPath p m))).1 &&
              !(classify (fs.meta (childPath p m))).2) = false := by
            rcases hcl with h | h <;> simp [h]
          simp [filterEntries, h1, List.countP_cons, ih]
        · by_cases h1 : (!(classify (fs.meta (childPath p m))).1 &&
              !(classify (fs.meta (childPath p m))).2) = true
          · simp [filterEntries, h1, List.countP_cons, hmn, ih]
          · simp [filterEntries, h1, List.countP_cons, hmn, ih]
  · intro fs p sf items n h0
    induction items with
    | nil => simp [filterEntries]
    | cons it rest ih =>
      cases it with
      | none => simpa [filterEntries] using ih
      | some m =>
        by_cases hmn : m = n
        · subst hmn
          have h1 : (!(classify (fs.meta (childPath p m))).1 &&
              !(classify (fs.meta (childPath p m))).2) = true := by simp [h0]
          simpa [filterEntries, h1] using ih
        · by_cases h1 : (!(classify (fs.meta (childPath p m))).1 &&
              !(classify (fs.meta (childPath p m))).2) = true
          · simpa [filterEntries, h1] using ih
          · by_cases h2 : ((classify (fs.meta (childPath p m))).1 || sf) = true
            · simp [filterEntries, h1, h2, List.countP_cons, hmn, ih]
            · simpa [filterEntries, h1, h2] using ih

theorem filtering_law_correct_witness :
    ((classify ((⟨fun _ => none, fun _ => some ⟨true, false, false⟩⟩ : Fs).meta
        (childPath "r" "a"))).1 = true ∨
      (classify ((⟨fun _ => none, fun _ => some ⟨true, false, false⟩⟩ : Fs).meta
        (childPath "r" "a"))).2 = true) ∧
    (filterEntries ⟨fun _ => none, fun _ => some ⟨true, false, false⟩⟩ "r" true
        [some "a", none, some "b"]).countP (fun e => e.name == "a") =
      ([some "a", none, some "b"] : List (Option String)).countP
        (fun it => it == some "a") := by
  refine ⟨Or.inl (by decide), ?_⟩
  exact (filtering_law_correct.2.1 ⟨fun _ => none, fun _ => some ⟨true, false, false⟩⟩
    "r" [some "a", none, some "b"] "a" (Or.inl (by decide)))

/-- C4: metadata reporting a symbolic link that is not a directory classifies
the entry file-like (so it is retained only when `show_files` is set); a
retained non-directory entry contributes exactly its own line and the
recursive continuation is never invoked on it; metadata reporting a directory
classifies the entry directory-like even when it also reports a symlink, and
a retained directory-like entry is recursed into. -/
theorem symlink_leaf_correct :
    (∀ md : Metadata, md.is_symlink = true → md.is_dir = false →
        classify (some md) = (false, true))
    ∧ (∀ md : Metadata, md.is_dir = true → (classify (some md)).1 = true)
    ∧ (∀ (recur : String → List Bool → List String) (fmt : List String) (path : String)
        (pre : List Bool) (count i : Nat) (e : DirEntry), e.is_dir = false →
        emitEntry recur fmt path pre count i e =
          [renderLine (pre ++ [i == count - 1]) fmt e.name])
    ∧ (∀ (recur : String → List Bool → List String) (fmt : List String) (path : String)
        (pre : List Bool) (count i : Nat) (e : DirEntry), e.is_dir = true →
        emitEntry recur fmt path pre count i e =
          renderLine (pre ++ [i == count - 1]) fmt e.name ::
            recur (childPath path e.name) (pre ++ [i == count - 1]))
    ∧ (∀ (fs : Fs) (p : String) (sf : Bool) (items : List (Option String)) (e : DirEntry),
        e ∈ filterEntries fs p sf items → e.is_dir = false → sf = true) := by
  refine ⟨?_, ?_, ?_, ?_, ?_⟩
  · intro md h1 h2; simp [classify, h1, h2]
  · intro md h; simp [classify, h]
  · intro recur fmt path pre count i e h; simp [emitEntry, h]
  · intro recur fmt path pre count i e h; simp [emitEntry, h]
  · intro fs p sf items e he hd
    rw [filterEntries_eq_filterMap] at he
    obtain ⟨it, _, hke⟩ := List.mem_filterMap.mp he
    cases it with
    | none => simp [keepEntry] at hke
    | some n =>
      simp only [keepEntry] at hke
      by_cases h1 : (!(classify (fs.meta (childPath p n))).1 &&
          !(classify (fs.meta (childPath p n))).2) = true
      · simp [h1] at hke
      · by_cases h2 : ((classify (fs.meta (childPath p n))).1 || sf) = true
        · simp only [h1, h2, if_true, if_false, Bool.false_eq_true] at hke
          simp only [Option.some.injEq] at hke
          rw [← hke] at hd
          simp only at hd
          rw [hd] at h2
          simpa using h2
        · simp [h1, h2] at hke

theorem symlink_leaf_correct_witness :
    (⟨false, false, true⟩ : Metadata).is_symlink = true ∧
      classify (some ⟨false, false, true⟩) = (false, true) :=
  ⟨rfl, symlink_leaf_correct.1 ⟨false, false, true⟩ rfl rfl⟩

/-- C5: when reading a directory fails, `print_subtree` prints nothing and
raises no error; and when one entry's metadata query fails, the traversal
output is exactly the output over the filesystem in which that iterator item
is absent — the entry alone is excluded and the rest is printed normally. -/
theorem silent_recovery_correct :
    (∀ (fs : Fs) (sf : Bool) (fmt : List String) (fuel : Nat) (p : String) (pre : List Bool),
        fs.readDir p = none → print_subtree fs sf fmt fuel p pre = [])
    ∧ (∀ (fs : Fs) (sf : Bool) (fmt : List String) (fuel : Nat) (p : String) (pre : List Bool)
        (l1 l2 : List (Option String)) (n : String),
        fs.readDir p = some (l1 ++ some n :: l2) →
        fs.meta (childPath p n) = none →
        print_subtree fs sf fmt fuel p pre =
          print_subtree (setReadDir fs p (some (l1 ++ l2))) sf fmt fuel p pre) := by
  constructor
  · intro fs sf fmt fuel p pre h
    cases fuel with
    | zero => rfl
    | succ k => simp [print_subtree, h]
  · intro fs sf fmt fuel p pre l1 l2 n h hm0
    cases fuel with
    | zero => rfl
    | succ k =>
      have hmeta : (setReadDir fs p (some (l1 ++ l2))).meta = fs.meta := rfl
      have hkeep : keepEntry fs p sf (some n) = none := by
        simp [keepEntry, hm0, classify]
      have hflt : filterEntries fs p sf (l1 ++ some n :: l2) =
          filterEntries fs p sf (l1 ++ l2) := by
        rw [filterEntries_eq_filterMap, filterEntries_eq_filterMap,
          List.filterMap_append, List.filterMap_append, List.filterMap_cons, hkeep]
      have hrd2 : (setReadDir fs p (some (l1 ++ l2))).readDir p = some (l1 ++ l2) := by
        simp [setReadDir]
      simp only [print_subtree, h, hrd2]
      rw [filterEntries_meta_congr hmeta, hflt]
      apply emitAll_congr
      intro e _ _ pr
      refine @print_subtree_congr_deep fs (setReadDir fs p (some (l1 ++ l2))) hmeta
        p.length ?_ sf fmt k (childPath p e.name) pr ?_
      · intro q hq
        simp only [setReadDir]
        rw [if_neg]
        intro heq
        rw [heq] at hq
        exact absurd hq (lt_irrefl _)
      · rw [length_childPath]; omega

theorem silent_recovery_correct_witness :
    (⟨fun q => if q = "r" then some [some "a"] else none, fun _ => none⟩ : Fs).readDir "r" =
        some ([] ++ some "a" :: []) ∧
      print_subtree ⟨fun q => if q = "r" then some [some "a"] else none, fun _ => none⟩
          false [] 1 "r" [] =
        print_subtree (setReadDir ⟨fun q => if q = "r" then some [some "a"] else none,
            fun _ => none⟩ "r" (some ([] ++ []))) false [] 1 "r" [] := by
  refine ⟨by simp, ?_⟩
  exact silent_recovery_correct.2
    ⟨fun q => if q = "r" then some [some "a"] else none, fun _ => none⟩
    false [] 1 "r" [] [] [] "a" (by simp) rfl

/-- C6: a retained directory-like entry whose own contents are unreadable
still contributes its name line (emitted before the recursive call), no lines
for its contents; and in a run whose root resolves to a directory containing
one such subdirectory, the program still terminates successfully (exit
status 0) with exactly the root line and the subdirectory line. -/
theorem unreadable_subdir_correct :
    (∀ (fs : Fs) (sf : Bool) (fmt : List String) (fuel : Nat) (path : String)
        (pre : List Bool) (count i : Nat) (e : DirEntry),
        e.is_dir = true → fs.readDir (childPath path e.name) = none →
        emitEntry (print_subtree fs sf fmt fuel) fmt path pre count i e =
          [renderLine (pre ++ [i == count - 1]) fmt e.name])
    ∧ (∀ (env : OsEnv) (s canon n : String) (sf af : Bool) (md md' : Metadata) (fuel : Nat),
        env.canonicalize s = some canon →
        env.fs.meta canon = some md → md.is_dir = true →
        env.fs.readDir canon = some [some n] →
        env.fs.meta (childPath canon n) = some md' → md'.is_dir = true →
        env.fs.readDir (childPath canon n) = none →
        runMain (some s) sf af env (fuel + 2) =
          Except.ok [displayName canon,
            renderLine [true] (if af then asciiFormat else unicodeFormat) n]) := by
  have hempty : ∀ (fs : Fs) (sf : Bool) (fmt : List String) (fuel : Nat) (q : String)
      (pre : List Bool), fs.readDir q = none → print_subtree fs sf fmt fuel q pre = [] := by
    intro fs sf fmt fuel q pre h
    cases fuel with
    | zero => rfl
    | succ k => simp [print_subtree, h]
  constructor
  · intro fs sf fmt fuel path pre count i e hd hnone
    simp only [emitEntry, hd, if_true]
    rw [hempty fs sf fmt fuel _ _ hnone]
  · intro env s canon n sf af md md' fuel hc hm hdir hrd hm' hdir' hrd'
    have hfilter : filterEntries env.fs canon sf [some n] = [⟨n, true⟩] := by
      simp [filterEntries, classify, hm', hdir']
    have hsubtree : print_subtree env.fs sf (if af then asciiFormat else unicodeFormat)
        (fuel + 2) canon [] =
        [renderLine [true] (if af then asciiFormat else unicodeFormat) n] := by
      show print_subtree _ _ _ (fuel + 1 + 1) _ _ = _
      simp only [print_subtree, hrd, hfilter, sortEntries, List.mergeSort_singleton,
        List.length_singleton, emitAll, emitEntry]
      simp [hrd']
    simp [runMain, startPath, hc, hm, hdir, hsubtree]

theorem unreadable_subdir_correct_witness :
    (⟨fun q => if q = "/r" then some [some "d"] else none,
       fun q => if q = "/r" then some ⟨true, false, false⟩
         else if q = childPath "/r" "d" then some ⟨true, false, false⟩ else none⟩ : Fs).readDir
        (childPath "/r" "d") = none ∧
      runMain (some "/r") false false
        ⟨none, fun s => some s,
          ⟨fun q => if q = "/r" then some [some "d"] else none,
           fun q => if q = "/r" then some ⟨true, false, false⟩
             else if q = childPath "/r" "d" then some ⟨true, false, false⟩ else none⟩⟩
        (0 + 2) =
        Except.ok [displayName "/r",
          renderLine [true] (if false then asciiFormat else unicodeFormat) "d"] := by
  refine ⟨by decide, ?_⟩
  exact unreadable_subdir_correct.2 _ "/r" "/r" "d" false false ⟨true, false, false⟩
    ⟨true, false, false⟩ 0 rfl (by decide) rfl (by decide) (by decide) rfl (by decide)

/-- C7: the run fails (a descriptive, nonempty message on the error stream
and exit status 1) exactly when the root cannot be established — no start
path (no argument and no resolvable current directory), canonicalization
failure, metadata failure, or a non-directory target — and otherwise it
succeeds with exit status 0, including when the printed tree is empty. -/
theorem root_error_correct (path_arg : Option String) (sf af : Bool) (env : OsEnv)
    (fuel : Nat) :
    ((∃ msg, runMain path_arg sf af env fuel = Except.error msg) ↔
      (startPath path_arg env = none ∨
        ∃ s, startPath path_arg env = some s ∧
          (env.canonicalize s = none ∨
            ∃ c, env.canonicalize s = some c ∧
              (env.fs.meta c = none ∨
                ∃ md, env.fs.meta c = some md ∧ md.is_dir = false))))
    ∧ (startPath path_arg env = none ↔ (path_arg = none ∧ env.currentDir = none))
    ∧ (∀ msg, runMain path_arg sf af env fuel = Except.error msg → msg ≠ "")
    ∧ ((∃ out, runMain path_arg sf af env fuel = Except.ok out) ↔
        ¬(startPath path_arg env = none ∨
          ∃ s, startPath path_arg env = some s ∧
            (env.canonicalize s = none ∨
              ∃ c, env.canonicalize s = some c ∧
                (env.fs.meta c = none ∨
                  ∃ md, env.fs.meta c = some md ∧ md.is_dir = false)))) := by
  have happ : ∀ (a b : String), a.length ≠ 0 → a ++ b ≠ "" := by
    intro a b ha h
    have hl := congrArg String.length h
    rw [String.length_append] at hl
    simp at hl
    omega
  have happ2 : ∀ (a b : String), b.length ≠ 0 → a ++ b ≠ "" := by
    intro a b hb h
    have hl := congrArg String.length h
    rw [String.length_append] at hl
    simp at hl
    omega
  refine ⟨?_, ?_, ?_, ?_⟩
  · cases hpa : path_arg with
    | none =>
      cases hcd : env.currentDir with
      | none => simp [runMain, startPath, hcd]
      | some d =>
        cases hc : env.canonicalize d with
        | none => simp [runMain, startPath, hcd, hc]
        | some c =>
          cases hm : env.fs.meta c with
          | none => simp [runMain, startPath, hcd, hc, hm]
          | some md =>
            cases hd : md.is_dir with
            | false => simp [runMain, startPath, hcd, hc, hm, hd]
            | true => simp [runMain, startPath, hcd, hc, hm, hd]
    | some s =>
      cases hc : env.canonicalize s with
      | none => simp [runMain, startPath, hc]
      | some c =>
        cases hm : env.fs.meta c with
        | none => simp [runMain, startPath, hc, hm]
        | some md =>
          cases hd : md.is_dir with
          | false => simp [runMain, startPath, hc, hm, hd]
          | true => simp [runMain, startPath, hc, hm, hd]
  · cases path_arg <;> simp [startPath]
  · intro msg hmsg
    cases hpa : path_arg with
    | none =>
      cases hcd : env.currentDir with
      | none =>
        rw [hpa] at hmsg
        simp [runMain, startPath, hcd] at hmsg
        rw [← hmsg]
        decide
      | some d =>
        rw [hpa] at hmsg
        cases hc : env.canonicalize d with
        | none =>
          simp [runMain, startPath, hcd, hc] at hmsg
          rw [← hmsg]
          exact happ _ _ (by decide)
        | some c =>
          cases hm : env.fs.meta c with
          | none =>
            simp [runMain, startPath, hcd, hc, hm] at hmsg
            rw [← hmsg]
            exact happ _ _ (by decide)
          | some md =>
            cases hd : md.is_dir with
            | false =>
              simp [runMain, startPath, hcd, hc, hm, hd] at hmsg
              rw [← hmsg]
              exact happ2 _ _ (by decide)
            | true => simp [runMain, startPath, hcd, hc, hm, hd] at hmsg
    | some s =>
      rw [hpa] at hmsg
      cases hc : env.canonicalize s with
      | none =>
        simp [runMain, startPath, hc] at hmsg
        rw [← hmsg]
        exact happ _ _ (by decide)
      | some c =>
        cases hm : env.fs.meta c with
        | none =>
          simp [runMain, startPath, hc, hm] at hmsg
          rw [← hmsg]
          exact happ _ _ (by decide)
        | some md =>
          cases hd : md.is_dir with
          | false =>
            simp [runMain, startPath, hc, hm, hd] at hmsg
            rw [← hmsg]
            exact happ2 _ _ (by decide)
          | true => simp [runMain, startPath, hc, hm, hd] at hmsg
  · cases hpa : path_arg with
    | none =>
      cases hcd : env.currentDir with
      | none => simp [runMain, startPath, hcd]
      | some d =>
        cases hc : env.canonicalize d with
        | none => simp [runMain, startPath, hcd, hc]
        | some c =>
          cases hm : env.fs.meta c with
          | none => simp [runMain, startPath, hcd, hc, hm]
          | some md =>
            cases hd : md.is_dir with
            | false => simp [runMain, startPath, hcd, hc, hm, hd]
            | true => simp [runMain, startPath, hcd, hc, hm, hd]
    | some s =>
      cases hc : env.canonicalize s with
      | none => simp [runMain, startPath, hc]
      | some c =>
        cases hm : env.fs.meta c with
        | none => simp [runMain, startPath, hc, hm]
        | some md =>
          cases hd : md.is_dir with
          | false => simp [runMain, startPath, hc, hm, hd]
          | true => simp [runMain, startPath, hc, hm, hd]

theorem root_error_correct_witness :
    startPath none ⟨none, fun _ => none, ⟨fun _ => none, fun _ => none⟩⟩ = none ∧
      ∃ msg, runMain none false false
        ⟨none, fun _ => none, ⟨fun _ => none, fun _ => none⟩⟩ 0 = Except.error msg :=
  ⟨rfl, (root_error_correct none false false
    ⟨none, fun _ => none, ⟨fun _ => none, fun _ => none⟩⟩ 0).1.mpr (Or.inl rfl)⟩

/-- C8: the run is a pure function of the filesystem state and the flags
(two runs are byte-identical), and the traversal does not depend on the
order in which the filesystem enumerates directory entries: over two
filesystems with the same metadata whose directory reads agree up to
permutation of the items, every traversal produces the same output (under
the filesystem guarantee of unique names within a directory). -/
theorem deterministic_traversal (fs fs' : Fs) (sf : Bool) (fmt : List String)
    (hm : fs'.meta = fs.meta)
    (hrd : ∀ q, (fs.readDir q = none ∧ fs'.readDir q = none) ∨
        ∃ l l', fs.readDir q = some l ∧ fs'.readDir q = some l' ∧ List.Perm l l')
    (hnd : ∀ q l, fs.readDir q = some l → (okNames l).Nodup) :
    (∀ (fuel : Nat) (p : String) (pre : List Bool),
        print_subtree fs sf fmt fuel p pre = print_subtree fs' sf fmt fuel p pre)
    ∧ (∀ (a : Option String) (af : Bool) (env : OsEnv) (fuel : Nat),
        runMain a sf af env fuel = runMain a sf af env fuel) := by
  constructor
  · intro fuel
    induction fuel with
    | zero => intro p pre; rfl
    | succ k ih =>
      intro p pre
      rcases hrd p with ⟨h1, h2⟩ | ⟨l, l', h1, h2, hp⟩
      · simp [print_subtree, h1, h2]
      · simp only [print_subtree, h1, h2]
        have hfe : filterEntries fs' p sf l' = filterEntries fs p sf l' :=
          filterEntries_meta_congr hm p sf l'
        have hperm : List.Perm (filterEntries fs p sf l') (filterEntries fs p sf l) := by
          rw [filterEntries_eq_filterMap, filterEntries_eq_filterMap]
          exact (hp.symm).filterMap _
        have hnames : ((filterEntries fs p sf l).map DirEntry.name).Nodup :=
          (names_filterEntries_sublist fs p sf l).nodup (hnd p l h1)
        have hsort : sortEntries p (filterEntries fs p sf l') =
            sortEntries p (filterEntries fs p sf l) :=
          sortEntries_eq_of_perm p hperm (((hperm.map DirEntry.name).nodup_iff).mpr hnames)
        rw [hfe, hsort]
        apply emitAll_congr
        intro e _ _ pr
        exact ih (childPath p e.name) pr
  · intro a af env fuel; rfl

theorem deterministic_traversal_witness :
    (∀ (fuel : Nat) (p : String) (pre : List Bool),
        print_subtree ⟨fun _ => none, fun _ => none⟩ false [] fuel p pre =
          print_subtree ⟨fun _ => none, fun _ => none⟩ false [] fuel p pre)
    ∧ (∀ (a : Option String) (af : Bool) (env : OsEnv) (fuel : Nat),
        runMain a false af env fuel = runMain a false af env fuel) :=
  deterministic_traversal ⟨fun _ => none, fun _ => none⟩ ⟨fun _ => none, fun _ => none⟩
    false [] rfl (fun _ => Or.inl ⟨rfl, rfl⟩) (fun _ _ h => Option.noConfusion h)

/-- C9: the connector prefix handed to the renderer always has length at
least one (a boolean was just pushed), so `new_prefix.len() - 1` cannot
underflow; every index chosen into the glyph set is one of 0..3 and both
glyph sets have exactly 4 elements; and the per-entry loop body (which
evaluates `entries_count - 1`) runs only when the retained entry list is
nonempty, in which case its length is at least one. -/
theorem index_safety :
    (∀ (pre : List Bool) (b : Bool), 1 ≤ (pre ++ [b]).length)
    ∧ (∀ own_level was_last : Bool, glyphIndex own_level was_last < 4)
    ∧ unicodeFormat.length = 4 ∧ asciiFormat.length = 4
    ∧ (∀ (recur : String → List Bool → List String) (fmt : List String) (path : String)
        (pre : List Bool) (count i : Nat),
        emitAll recur fmt path pre count i [] = [])
    ∧ (∀ (entries : List DirEntry), entries ≠ [] → 1 ≤ entries.length) := by
  refine ⟨?_, by decide, rfl, rfl, ?_, ?_⟩
  · intro pre b; simp
  · intro recur fmt path pre count i; rfl
  · intro entries h
    cases entries with
    | nil => exact absurd rfl h
    | cons a l => simp

theorem index_safety_witness :
    ([⟨"a", true⟩] : List DirEntry) ≠ [] ∧ 1 ≤ ([⟨"a", true⟩] : List DirEntry).length :=
  ⟨by decide, index_safety.2.2.2.2.2 [⟨"a", true⟩] (by decide)⟩

/-- C10: the fuelled recursion stabilizes on every filesystem whose tree of
retained directory-like entries below the start path is finite: once the
fuel reaches the depth bound, adding more fuel does not change the output,
so `print_subtree` terminates on every finite directory tree. -/
theorem recursion_terminates (fs : Fs) (sf : Bool) (fmt : List String) :
    ∀ (n : Nat) (p : String), depthLe fs sf n p →
      ∀ (m : Nat), n ≤ m → ∀ (pre : List Bool),
        print_subtree fs sf fmt m p pre = print_subtree fs sf fmt n p pre := by
  intro n
  induction n with
  | zero =>
    intro p hd m _ pre
    cases m with
    | zero => rfl
    | succ k =>
      cases h : fs.readDir p with
      | none => simp [print_subtree, h]
      | some items =>
        have hf := hd items h
        simp [print_subtree, h, hf, sortEntries, emitAll]
  | succ n ih =>
    intro p hd m hm pre
    cases m with
    | zero => exact absurd hm (by omega)
    | succ k =>
      have hk : n ≤ k := by omega
      cases h : fs.readDir p with
      | none => simp [print_subtree, h]
      | some items =>
        simp only [print_subtree, h]
        apply emitAll_congr
        intro e he hdd pr
        have hmem : e ∈ filterEntries fs p sf items := by
          simpa [sortEntries] using he
        exact ih (childPath p e.name) (hd items h e hmem hdd) k hk pr

theorem recursion_terminates_witness :
    depthLe ⟨fun _ => none, fun _ => none⟩ false 0 "x" ∧
      print_subtree ⟨fun _ => none, fun _ => none⟩ false [] 5 "x" [] =
        print_subtree ⟨fun _ => none, fun _ => none⟩ false [] 0 "x" [] :=
  ⟨fun _ h => Option.noConfusion h,
   recursion_terminates ⟨fun _ => none, fun _ => none⟩ false [] 0 "x"
     (fun _ h => Option.noConfusion h) 5 (by omega) []⟩
